import Mathlib

/-
Verification of the sequence-generation and beam-search core of the
`blocks` library.

The development shallowly embeds:
  * `BeamSearch._smallest` and the body of `BeamSearch.search`
    (blocks/search.py),
  * `BaseSequenceGenerator.evaluate`, `cost_matrix` and `cost`
    (blocks/bricks/sequence_generators.py),
  * `SoftmaxEmitter.cost` (blocks/bricks/sequence_generators.py),
  * the `Mean` aggregation scheme (blocks/monitoring/aggregation.py).

Floating-point arrays are modelled as lists of rationals; the `+inf`
sentinel used by the search for finished hypotheses is modelled by
`WithTop ℚ`.
-/

set_option maxHeartbeats 1000000

/-- Extended costs: rationals together with the `numpy.inf` sentinel. -/
abbrev ECost := WithTop ℚ

namespace BeamSearch

/-- Ordering on (flattened index, value) pairs: ascending by value, ties
broken by flattened index.  This is the deterministic model of the
`numpy.argpartition` + `numpy.argsort` composition used by
`BeamSearch._smallest`: the composition keeps the `k` smallest values in
ascending order, and we fix the tie order to flattened-index order. -/
def lexLe (p q : ℕ × ECost) : Prop :=
  p.2 < q.2 ∨ (p.2 = q.2 ∧ p.1 ≤ q.1)

instance : DecidableRel lexLe := fun p q =>
  inferInstanceAs (Decidable (p.2 < q.2 ∨ (p.2 = q.2 ∧ p.1 ≤ q.1)))

instance : IsTotal (ℕ × ECost) lexLe where
  total p q := by
    rcases lt_trichotomy p.2 q.2 with h | h | h
    · exact Or.inl (Or.inl h)
    · rcases Nat.le_total p.1 q.1 with h' | h'
      · exact Or.inl (Or.inr ⟨h, h'⟩)
      · exact Or.inr (Or.inr ⟨h.symm, h'⟩)
    · exact Or.inr (Or.inl h)

instance : IsTrans (ℕ × ECost) lexLe where
  trans p q s hpq hqs := by
    rcases hpq with h1 | ⟨e1, i1⟩
    · rcases hqs with h2 | ⟨e2, _⟩
      · exact Or.inl (h1.trans h2)
      · exact Or.inl (e2 ▸ h1)
    · rcases hqs with h2 | ⟨e2, i2⟩
      · exact Or.inl (e1 ▸ h2)
      · exact Or.inr ⟨e1.trans e2, i1.trans i2⟩

/-- The number of columns of a matrix represented as a list of rows,
as used by `numpy.unravel_index(args, matrix.shape)`. -/
def ncols (M : List (List ECost)) : ℕ := (M.headD []).length

/-- The flattened candidate array considered by `_smallest`:
`matrix[:1, :].flatten()` when `only_first_row` else `matrix.flatten()`. -/
def consideredFlat (M : List (List ECost)) (onlyFirstRow : Bool) : List ECost :=
  (if onlyFirstRow then M.take 1 else M).flatten

/-- Embedding of `BeamSearch._smallest`.  Returns `k` smallest
entries of the (possibly first-row-restricted) matrix as
`(row, column, value)` triples.  The external calls
`numpy.argpartition(flatten, k)[:k]` followed by a sort of the kept
values are modelled here by one concrete behaviour that conforms to
their documented contract: sort the enumerated flattened array by
(value, flattened index) and keep the first `k`.  numpy itself does
not guarantee this tie order — `argpartition` (introselect) and
`argsort` (default quicksort, unstable) leave the relative order of
equal values unspecified — so only tie-order-invariant properties of
this definition are properties of the program; `smallestContract`
below delimits what the numpy pipeline does guarantee.
`numpy.argpartition` raises when its `kth` argument (here `k`) is not
below the array length, which is modelled by returning `none`. -/
def smallest (M : List (List ECost)) (k : ℕ) (onlyFirstRow : Bool) :
    Option (List (ℕ × ℕ × ECost)) :=
  let flat := consideredFlat M onlyFirstRow
  if k < flat.length then
    some (((List.insertionSort lexLe flat.enum).take k).map
      (fun p => (p.1 / ncols M, p.1 % ncols M, p.2)))
  else none

/-- The guaranteed envelope of the `numpy.argpartition(flatten, k)[:k]`
+ `argsort` pipeline inside `BeamSearch._smallest`, with the
un-flattening `numpy.unravel_index(args, matrix.shape)` applied as in
the source: `k` is in bounds for `argpartition`, and the selection
arises from *some* permutation of the enumerated flattened array that
is sorted in ascending order of value — ties between equal values in an
unspecified order — by keeping its first `k` pairs.  Every behaviour
numpy may exhibit satisfies this predicate, and `smallest` is one of
them (`smallest_satisfies_contract`). -/
def smallestContract (M : List (List ECost)) (k : ℕ) (onlyFirstRow : Bool)
    (sel : List (ℕ × ℕ × ECost)) : Prop :=
  k < (consideredFlat M onlyFirstRow).length ∧
  ∃ S : List (ℕ × ECost),
    S.Perm (consideredFlat M onlyFirstRow).enum ∧
    List.Sorted (fun p q : ℕ × ECost => p.2 ≤ q.2) S ∧
    sel = (S.take k).map (fun p => (p.1 / ncols M, p.1 % ncols M, p.2))

/-- One row of the candidate-cost matrix of `BeamSearch.search`:
`next_costs = costs[:, None] + logprobs * mask[:, None]`, followed by
`next_costs[finished, :eol_symbol] = inf` and
`next_costs[finished, eol_symbol + 1:] = inf` for rows with mask zero.
The float mask entries are 0.0/1.0 and are modelled as booleans, so the
product `logprobs * mask` becomes an if-then-else. -/
def nextCostsRow (cost : ECost) (m : Bool) (lpRow : List ℚ) (eol : ℕ) :
    List ECost :=
  lpRow.enum.map (fun p =>
    if !m && (p.1 != eol) then ⊤
    else cost + (if m then ((p.2 : ℚ) : ECost) else 0))

/-- The candidate-cost matrix of one `BeamSearch.search` loop iteration. -/
def nextCosts (costs : List ECost) (mask : List Bool) (lp : List (List ℚ))
    (eol : ℕ) : List (List ECost) :=
  List.zipWith (fun cm row => nextCostsRow cm.1 cm.2 row eol)
    (costs.zip mask) lp

/-- The per-hypothesis numeric functions that `BeamSearch` extracts from
the generator's sampling computation graph, abstracted over the state
type: the log-probability computer, the next-state computer, and the
state re-indexing `states[name] = states[name][indexes]`. -/
structure Env (σ : Type) where
  initStates : σ
  initOutputs : List ℕ
  logprobs : σ → List (List ℚ)
  reindex : σ → List ℕ → σ
  nextStates : σ → List ℕ → σ

/-- The mutable loop state of `BeamSearch.search`: the per-hypothesis
states, the time-major output buffer `all_outputs` (seeded with the
initial output row), the activity mask and the cumulative costs. -/
structure LoopState (σ : Type) where
  states : σ
  allOutputs : List (List ℕ)
  mask : List Bool
  costs : List ECost

/-- The candidate selection of one loop iteration of `BeamSearch.search`:
`self._smallest(next_costs, self.beam_size, only_first_row=i == 0)`. -/
def stepSelection {σ : Type} (env : Env σ) (eol k : ℕ) (first : Bool)
    (st : LoopState σ) : Option (List (ℕ × ℕ × ECost)) :=
  smallest (nextCosts st.costs st.mask (env.logprobs st.states) eol) k first

/-- One iteration of the `BeamSearch.search` loop: select candidates,
re-index states / outputs / mask by the parent rows, compute next states,
append the chosen outputs, overwrite the costs with the chosen candidate
costs and clear the mask of hypotheses that emitted the end symbol. -/
def searchStep {σ : Type} (env : Env σ) (eol k : ℕ) (first : Bool)
    (st : LoopState σ) : Option (LoopState σ) :=
  (stepSelection env eol k first st).map (fun sel =>
    let indexes := sel.map (fun t => t.1)
    let outputs := sel.map (fun t => t.2.1)
    let chosen := sel.map (fun t => t.2.2)
    let states := env.reindex st.states indexes
    let allOutputs := st.allOutputs.map (fun row => indexes.map (row.getD · 0))
    let mask := indexes.map (st.mask.getD · false)
    { states := env.nextStates states outputs
      allOutputs := allOutputs ++ [outputs]
      mask := (outputs.zip mask).map (fun om => (om.1 != eol) && om.2)
      costs := chosen })

/-- The `for i in range(max_length)` loop of `BeamSearch.search`,
with its early exit when `mask.sum() == 0`.  The `first` flag is the
`i == 0` condition of the `_smallest` call. -/
def searchLoop {σ : Type} (env : Env σ) (eol k : ℕ) :
    ℕ → Bool → LoopState σ → Option (LoopState σ)
  | 0, _, st => some st
  | n + 1, first, st =>
    if st.mask.all (fun b => !b) then some st
    else
      match searchStep env eol k first st with
      | none => none
      | some st' => searchLoop env eol k n false st'

/-- The post-loop mask construction of `BeamSearch.search` for one
hypothesis (one row of `mask.T`): `mask = all_outputs != eol_symbol`, and
if the row contains an end symbol (`row.sum() < len(row)`) the entry at
index `row.sum()` — the number of `True` entries — is forced to 1 so
that the first end symbol is kept. -/
def postRow (eol : ℕ) (row : List ℕ) : List Bool :=
  let m := row.map (fun s => s != eol)
  if m.count true < m.length then m.set (m.count true) true else m

/-- The post-processing of `BeamSearch.search`: drop the seeded initial
output row, and build the final mask.  The mask is produced here
per hypothesis (i.e. as the rows of the numpy array's transpose
`mask.T`, which is exactly what the source's in-place loop iterates
over). -/
def postProcess (allOutputs : List (List ℕ)) (eol : ℕ) :
    List (List ℕ) × List (List Bool) :=
  let outs := allOutputs.drop 1
  let width := (outs.headD []).length
  (outs, (List.range width).map (fun j => postRow eol (outs.filterMap (·.get? j))))

/-- Embedding of `BeamSearch.search`: initial states with batch dimension
equal to the beam size, the pruned-search loop, then post-processing.
`none` models an uncaught exception from `numpy.argpartition` inside
`_smallest`. -/
def search {σ : Type} (env : Env σ) (eol maxLength k : ℕ) :
    Option (List (List ℕ) × List (List Bool) × List ECost) :=
  let st0 : LoopState σ :=
    { states := env.initStates
      allOutputs := [env.initOutputs]
      mask := List.replicate env.initOutputs.length true
      costs := List.replicate env.initOutputs.length (0 : ECost) }
  (searchLoop env eol k maxLength true st0).map (fun st =>
    let om := postProcess st.allOutputs eol
    (om.1, om.2, st.costs))

end BeamSearch

namespace SeqGen

/-- The components a `BaseSequenceGenerator` is assembled from, abstracted
over the value types: the readout's feedback, fork, readout and cost
functions, the transition's glimpse and state computations, and the
initial values.  The contexts, being constant across all steps, are baked
into the component functions.  A time slice of the output sequence is a
`List α` (one entry per batch element); per-step costs are one rational
per batch element. -/
structure Model (α φ ι σ γ ρ : Type) where
  initState : σ
  initGlimpse : γ
  initialOutputs : List α
  feedback : List α → φ
  fork : φ → ι
  takeGlimpses : σ → γ → γ
  computeStates : σ → γ → ι → σ
  readout : φ → σ → γ → ρ
  cost : ρ → List α → List ℚ

variable {α φ ι σ γ ρ : Type}

/-- Modelled from the spec: the bulk recurrent evaluation
`transition.apply(..., return_initial_states=True, ...)`.  The recurrent
scan machinery behind `transition.apply` is not among the sources; per
the spec it runs the transition once over the whole sequence length,
producing all states and glimpses simultaneously, where step `i`
computes glimpses from the previous step's states and glimpses and only
then the new states.  With `return_initial_states` the returned state
and glimpse sequences start with the initial values and have one entry
more than the input sequence. -/
def runTransition (m : Model α φ ι σ γ ρ) :
    σ → γ → List ι → List σ × List γ
  | s, g, [] => ([s], [g])
  | s, g, inp :: rest =>
    let g' := m.takeGlimpses s g
    let s' := m.computeStates s g' inp
    let p := runTransition m s' g' rest
    (s :: p.1, g :: p.2)

/-- `tensor.roll(feedback, 1, 0)`: rotate a list one step towards larger
indices along the time axis. -/
def roll1 (l : List φ) : List φ :=
  match l.getLast? with
  | none => []
  | some x => x :: l.dropLast

/-- `tensor.set_subtensor(feedback[0], ...)`: replace the first time
slice. -/
def setHead (l : List φ) (x : φ) : List φ :=
  match l with
  | [] => []
  | _ :: t => x :: t

/-- Three-list `zipWith`, used to apply the readout to the shifted
feedback, the kept states and the kept glimpses position by position. -/
def zipWith3 (f : φ → σ → γ → ρ) : List φ → List σ → List γ → List ρ
  | a :: as, b :: bs, c :: cs => f a b c :: zipWith3 f as bs cs
  | _, _, _ => []

/-- Embedding of `BaseSequenceGenerator.evaluate`: compute feedback for
all outputs, fork it into transition inputs, run the transition once
over the whole sequence keeping initial states, discard the final states
(`results[name][:-1]`) and the initial glimpses (`results[name][1:]`),
shift the feedback right by one step seeding position 0 with the
feedback of the initial outputs, apply the readout and the readout cost
per step, and multiply by the mask when one is given.  Only the
resulting cost matrix (the `costs` output of `evaluate`) is modelled;
the states and glimpses it additionally returns are the intermediate
values appearing here. -/
def evaluate (m : Model α φ ι σ γ ρ) (outputs : List (List α))
    (mask : Option (List (List ℚ))) : List (List ℚ) :=
  let fb := outputs.map m.feedback
  let inputs := fb.map m.fork
  let res := runTransition m m.initState m.initGlimpse inputs
  let states := res.1.dropLast
  let glimpses := res.2.drop 1
  let fb2 := setHead (roll1 fb) (m.feedback m.initialOutputs)
  let readouts := zipWith3 m.readout fb2 states glimpses
  let costs := List.zipWith m.cost readouts outputs
  match mask with
  | none => costs
  | some mk => List.zipWith (fun cr mr => List.zipWith (· * ·) cr mr) costs mk

/-- The transition inputs of `BaseSequenceGenerator.evaluate`:
`inputs = self.fork.apply(feedback)` for the feedback of all outputs. -/
def inputSeq (m : Model α φ ι σ γ ρ) (outputs : List (List α)) : List ι :=
  (outputs.map m.feedback).map m.fork

/-- A small concrete instantiation of the generator components over
natural-number values, used to exercise the theorems on closed inputs. -/
def natModel : Model ℕ ℕ ℕ ℕ ℕ ℕ :=
  ⟨0, 0, [7], fun l => l.sum, fun f => f, fun s g => s + g,
   fun s g i => s + g + i, fun f s g => f + s + g, fun r _ => [(r : ℚ)]⟩

/-- `costs.sum(axis=0)` on a time-major cost matrix whose batch width is
`w`: the per-batch-element sums over time. -/
def sumAxis0 (w : ℕ) (rows : List (List ℚ)) : List ℚ :=
  rows.foldl (fun acc row => List.zipWith (· + ·) acc row) (List.replicate w 0)

/-- `tensor.mean` of a vector. -/
def listMean (l : List ℚ) : ℚ := l.sum / l.length

/-- `costs.sum()`: the sum of all entries of a matrix. -/
def matTotal (rows : List (List ℚ)) : ℚ := (rows.map List.sum).sum

/-- Embedding of `BaseSequenceGenerator.cost`: the cost matrix is
`cost_matrix(outputs, mask) = evaluate(outputs, mask)[0]`; the returned
scalar is `tensor.mean(costs.sum(axis=0))` (the batch width of the cost
matrix being the batch dimension of `outputs`), and the second component
is the auxiliary `per_sequence_element` variable
`costs.sum() / mask.sum()` (just `costs.sum()` when no mask is given). -/
def costAndAux (m : Model α φ ι σ γ ρ) (outputs : List (List α))
    (mask : Option (List (List ℚ))) : ℚ × ℚ :=
  let costs := evaluate m outputs mask
  (listMean (sumAxis0 ((outputs.headD []).length) costs),
   match mask with
   | some mk => matTotal costs / matTotal mk
   | none => matTotal costs)

end SeqGen

namespace SoftmaxEmitter

/-- An n-dimensional numpy/theano array: a shape together with the
row-major flattened data. -/
structure NTensor (β : Type) where
  shape : List ℕ
  data : List β

/-- Split a flattened array into rows of width `w` (the reshape
`(prod(shape[:-1]), shape[-1])` of `SoftmaxEmitter.probs`), by fuel
recursion on the list length. -/
def chunksF : ℕ → ℕ → List ℚ → List (List ℚ)
  | 0, _, _ => []
  | _ + 1, _, [] => []
  | fuel + 1, w, l => l.take w :: chunksF fuel w (l.drop w)

/-- Split a flattened array into rows of width `w`. -/
def chunks (w : ℕ) (l : List ℚ) : List (List ℚ) := chunksF l.length w l

/-- Embedding of `SoftmaxEmitter.cost`.  `softmaxRow` abstracts the
real-valued `tensor.nnet.softmax` applied to one row of the reshaped
readouts, and `negLog` abstracts the elementwise `-tensor.log`; both are
real-valued functions with no exact rational form, so they are
parameters (constrained to be length-preserving where a theorem needs
it).  The gather
`probs.flatten()[max_output * tensor.arange(num_outputs) + flat_outputs]`
is fallible: `none` models the index-out-of-bounds error raised when a
gather index reaches past the flattened probabilities.  No rank check of
any kind is performed, mirroring the source (see its WARNING comment). -/
def cost (softmaxRow : List ℚ → List ℚ) (negLog : ℚ → ℚ)
    (readouts : NTensor ℚ) (outputs : NTensor ℕ) : Option (NTensor ℚ) :=
  let maxOutput := (readouts.shape.getLast?).getD 0
  let probsFlat := ((chunks maxOutput readouts.data).map softmaxRow).flatten
  let flatOutputs := outputs.data
  if flatOutputs.enum.all (fun p => maxOutput * p.1 + p.2 < probsFlat.length) then
    some ⟨outputs.shape,
      flatOutputs.enum.map (fun p => negLog (probsFlat.getD (maxOutput * p.1 + p.2) 0))⟩
  else none

end SoftmaxEmitter

namespace Aggregation

/-- The accumulator state allocated by `Mean.get_aggregator`: the shared
variables `numerator_acc` and `denominator_acc`. -/
structure MeanAgg where
  num : ℚ
  den : ℚ

/-- The `initialization_updates` of the `Mean` aggregator: both
accumulators are set to 0.0. -/
def MeanAgg.initialization : MeanAgg := ⟨0, 0⟩

/-- The `accumulation_updates` of the `Mean` aggregator: add the current
batch's numerator and denominator to the accumulators. -/
def MeanAgg.accumulate (a : MeanAgg) (num den : ℚ) : MeanAgg :=
  ⟨a.num + num, a.den + den⟩

/-- The `readout_variable` of the `Mean` aggregator: the accumulated
numerator over the accumulated denominator. -/
def MeanAgg.readout (a : MeanAgg) : ℚ := a.num / a.den

/-- The monitored numerator of the aggregation test scenario:
`input_.mean(axis=1).sum()`, the sum of the row means of a batch. -/
def batchNumerator (x : List (List ℚ)) : ℚ :=
  (x.map SeqGen.listMean).sum

/-- The monitored denominator of the aggregation test scenario:
`input_.shape[0]`, the number of rows of a batch. -/
def batchDenominator (x : List (List ℚ)) : ℚ := x.length

end Aggregation

section ListLemmas

variable {β γ δ : Type*}

theorem mem_of_getElem?_eq_some {l : List β} {i : ℕ} {a : β}
    (h : l[i]? = some a) : a ∈ l := by
  obtain ⟨hi, rfl⟩ := List.getElem?_eq_some.mp h
  exact List.getElem_mem _

theorem exists_getElem?_eq_some {l : List β} {i : ℕ} (hi : i < l.length) :
    ∃ a, l[i]? = some a :=
  ⟨l[i], List.getElem?_eq_getElem hi⟩

theorem countP_enumFrom_snd (q : β → Bool) :
    ∀ (n : ℕ) (l : List β),
      (List.enumFrom n l).countP (fun p => q p.2) = l.countP q
  | _, [] => rfl
  | n, a :: l => by
    simp [List.enumFrom, List.countP_cons, countP_enumFrom_snd q (n + 1) l]

theorem countP_enum_snd (q : β → Bool) (l : List β) :
    l.enum.countP (fun p => q p.2) = l.countP q :=
  countP_enumFrom_snd q 0 l

theorem length_le_sum_of_one_le :
    ∀ l : List ℕ, (∀ x ∈ l, 1 ≤ x) → l.length ≤ l.sum
  | [], _ => le_refl 0
  | a :: l, h => by
    simp only [List.length_cons, List.sum_cons]
    have h1 := length_le_sum_of_one_le l (fun x hx => h x (List.mem_cons_of_mem a hx))
    have h2 := h a (List.mem_cons_self a l)
    omega

theorem set_append_length (l1 l2 : List β) (x : β) :
    (l1 ++ l2).set l1.length x = l1 ++ l2.set 0 x := by
  induction l1 with
  | nil => simp
  | cons a t ih => simp [List.set, ih]

theorem set_append_length' (l1 l2 : List β) (x : β) (n : ℕ)
    (hn : n = l1.length) : (l1 ++ l2).set n x = l1 ++ l2.set 0 x := by
  rw [hn]
  exact set_append_length l1 l2 x

theorem flatten_rect_getElem? {M : List (List β)} {w : ℕ}
    (hw : ∀ row ∈ M, row.length = w) {i : ℕ} {v : β}
    (h : M.flatten[i]? = some v) :
    ∃ row, M[i / w]? = some row ∧ row[i % w]? = some v := by
  have hw0 : 0 < w := by
    rcases Nat.eq_zero_or_pos w with h0 | h0
    · exfalso
      have hlen : M.flatten.length = 0 := by
        rw [List.length_flatten, List.sum_eq_zero]
        intro x hx
        obtain ⟨row, hrow, rfl⟩ := List.mem_map.mp hx
        rw [hw row hrow, h0]
      have := (List.getElem?_eq_some.mp h).1
      omega
    · exact h0
  induction M generalizing i with
  | nil => simp at h
  | cons row rest ih =>
    have hrow : row.length = w := hw row (List.mem_cons_self _ _)
    rw [List.flatten_cons] at h
    by_cases hi : i < w
    · rw [List.getElem?_append, if_pos (by omega)] at h
      exact ⟨row, by rw [Nat.div_eq_of_lt hi]; simp, by rw [Nat.mod_eq_of_lt hi]; exact h⟩
    · push_neg at hi
      rw [List.getElem?_append, if_neg (by omega), hrow] at h
      obtain ⟨row', h1, h2⟩ :=
        ih (fun r hr => hw r (List.mem_cons_of_mem _ hr)) h
      refine ⟨row', ?_, ?_⟩
      · rw [Nat.div_eq_sub_div hw0 hi]
        simpa using h1
      · rw [Nat.mod_eq_sub_mod hi]
        exact h2

end ListLemmas

namespace BeamSearch

theorem smallest_eq {M : List (List ECost)} {k : ℕ} {off : Bool}
    {sel : List (ℕ × ℕ × ECost)} (h : smallest M k off = some sel) :
    k < (consideredFlat M off).length ∧
      sel = ((List.insertionSort lexLe (consideredFlat M off).enum).take k).map
        (fun p => (p.1 / ncols M, p.1 % ncols M, p.2)) := by
  simp only [smallest] at h
  split_ifs at h with hk
  exact ⟨hk, (Option.some.inj h).symm⟩

theorem length_insertionSort' (r : ℕ × ECost → ℕ × ECost → Prop)
    [DecidableRel r] (l : List (ℕ × ECost)) :
    (List.insertionSort r l).length = l.length :=
  (List.perm_insertionSort r l).length_eq

theorem smallest_sel_length {M : List (List ECost)} {k : ℕ} {off : Bool}
    {sel : List (ℕ × ℕ × ECost)} (h : smallest M k off = some sel) :
    sel.length = k := by
  obtain ⟨hk, rfl⟩ := smallest_eq h
  rw [List.length_map, List.length_take, length_insertionSort',
    List.enum_length]
  omega

theorem smallest_mem_take {M : List (List ECost)} {k : ℕ} {off : Bool}
    {sel : List (ℕ × ℕ × ECost)} (h : smallest M k off = some sel)
    {t : ℕ × ℕ × ECost} (ht : t ∈ sel) :
    ∃ i, (i, t.2.2) ∈ (List.insertionSort lexLe (consideredFlat M off).enum).take k ∧
      t.1 = i / ncols M ∧ t.2.1 = i % ncols M := by
  obtain ⟨hk, rfl⟩ := smallest_eq h
  obtain ⟨p, hp, rfl⟩ := List.mem_map.mp ht
  exact ⟨p.1, hp, rfl, rfl⟩

theorem mem_take_sorted_flat {flat : List ECost} {k : ℕ} {i : ℕ} {v : ECost}
    (h : (i, v) ∈ (List.insertionSort lexLe flat.enum).take k) :
    flat[i]? = some v := by
  have h1 : (i, v) ∈ List.insertionSort lexLe flat.enum :=
    (List.take_sublist _ _).mem h
  have h2 : (i, v) ∈ flat.enum :=
    (List.perm_insertionSort lexLe flat.enum).mem_iff.mp h1
  exact List.mem_enum_iff_getElem?.mp h2

theorem smallest_spec {M : List (List ECost)} {k : ℕ} {off : Bool}
    {sel : List (ℕ × ℕ × ECost)} (h : smallest M k off = some sel)
    {t : ℕ × ℕ × ECost} (ht : t ∈ sel) :
    ∃ i, i < (consideredFlat M off).length ∧
      (consideredFlat M off)[i]? = some t.2.2 ∧
      t.1 = i / ncols M ∧ t.2.1 = i % ncols M := by
  obtain ⟨i, hmem, h1, h2⟩ := smallest_mem_take h ht
  have hflat := mem_take_sorted_flat hmem
  exact ⟨i, (List.getElem?_eq_some.mp hflat).1, hflat, h1, h2⟩

theorem ncols_pos_of_flat {M : List (List ECost)} {off : Bool}
    (hw : ∀ row ∈ M, row.length = ncols M) {i : ℕ}
    (h : i < (consideredFlat M off).length) : 0 < ncols M := by
  rcases Nat.eq_zero_or_pos (ncols M) with h0 | h0
  · exfalso
    have hlen : (consideredFlat M off).length = 0 := by
      rw [consideredFlat, List.length_flatten, List.sum_eq_zero]
      intro x hx
      obtain ⟨row, hrow, rfl⟩ := List.mem_map.mp hx
      have hrM : row ∈ M := by
        rcases off with _ | _
        · simpa using hrow
        · exact List.take_subset 1 M (by simpa using hrow)
      rw [hw row hrM, h0]
    omega
  · exact h0

theorem smallest_entry {M : List (List ECost)} {k : ℕ} {off : Bool}
    {sel : List (ℕ × ℕ × ECost)}
    (hw : ∀ row ∈ M, row.length = ncols M)
    (h : smallest M k off = some sel)
    {t : ℕ × ℕ × ECost} (ht : t ∈ sel) :
    (∃ row, M[t.1]? = some row ∧ row[t.2.1]? = some t.2.2) ∧
      t.1 * ncols M + t.2.1 < (consideredFlat M off).length ∧
      (consideredFlat M off)[t.1 * ncols M + t.2.1]? = some t.2.2 := by
  obtain ⟨i, hi, hflat, h1, h2⟩ := smallest_spec h ht
  have hn : 0 < ncols M := ncols_pos_of_flat hw hi
  have hidx : t.1 * ncols M + t.2.1 = i := by
    rw [h1, h2]
    exact Nat.div_add_mod' i (ncols M)
  rw [hidx]
  refine ⟨?_, hi, hflat⟩
  rcases off with _ | _
  · -- full matrix
    simp only [consideredFlat, Bool.false_eq_true, if_neg] at hflat
    obtain ⟨row, hr1, hr2⟩ := flatten_rect_getElem? hw (by simpa using hflat)
    exact ⟨row, by rw [h1]; exact hr1, by rw [h2]; exact hr2⟩
  · -- first row only
    rcases M with _ | ⟨r0, rest⟩
    · simp [consideredFlat] at hi
    · have hflat' : r0[i]? = some t.2.2 := by
        simpa [consideredFlat] using hflat
      have hir : i < r0.length := (List.getElem?_eq_some.mp hflat').1
      have hnc : ncols (r0 :: rest) = r0.length := rfl
      refine ⟨r0, ?_, ?_⟩
      · rw [h1, hnc, Nat.div_eq_of_lt hir]
        simp
      · rw [h2, hnc, Nat.mod_eq_of_lt hir]
        exact hflat'

end BeamSearch

namespace BeamSearch

theorem smallest_ne_top {M : List (List ECost)} {k : ℕ} {off : Bool}
    {sel : List (ℕ × ℕ × ECost)} (h : smallest M k off = some sel)
    (hcount : k ≤ (consideredFlat M off).countP (fun x => decide (x ≠ ⊤))) :
    ∀ t ∈ sel, t.2.2 ≠ ⊤ := by
  intro t ht hv
  obtain ⟨i, hmem, -, -⟩ := smallest_mem_take h ht
  rw [hv] at hmem
  set flat := consideredFlat M off with hflat
  set S := List.insertionSort lexLe flat.enum with hS
  have hsorted : List.Sorted lexLe S := List.sorted_insertionSort lexLe flat.enum
  have hperm : S.Perm flat.enum := List.perm_insertionSort lexLe flat.enum
  have hsplit : S.take k ++ S.drop k = S := List.take_append_drop k S
  have hpair : ∀ a ∈ S.take k, ∀ b ∈ S.drop k, lexLe a b := by
    have := hsplit ▸ hsorted
    exact (List.pairwise_append.mp this).2.2
  have hdroptop : ∀ b ∈ S.drop k, b.2 = ⊤ := by
    intro b hb
    rcases hpair (i, ⊤) hmem b hb with hlt | ⟨he, -⟩
    · exact absurd hlt (not_top_lt)
    · exact he.symm
  set p : ℕ × ECost → Bool := fun q => decide (q.2 ≠ ⊤) with hp
  have hdropz : (S.drop k).countP p = 0 := by
    rw [List.countP_eq_zero]
    intro b hb
    simp [hp, hdroptop b hb]
  have htakelt : (S.take k).countP p < (S.take k).length := by
    have hle : (S.take k).countP p ≤ (S.take k).length := List.countP_le_length p
    rcases lt_or_eq_of_le hle with hlt | heq
    · exact hlt
    · exfalso
      have := (List.countP_eq_length.mp heq) (i, ⊤) hmem
      simp [hp] at this
  have htakelen : (S.take k).length ≤ k := by
    rw [List.length_take]
    omega
  have hStotal : S.countP p = flat.countP (fun x => decide (x ≠ ⊤)) := by
    rw [hperm.countP_eq, hp]
    exact countP_enum_snd (fun x => decide (x ≠ ⊤)) flat
  have : S.countP p < k := by
    calc S.countP p = (S.take k).countP p + (S.drop k).countP p := by
          rw [← List.countP_append, hsplit]
      _ = (S.take k).countP p := by rw [hdropz, Nat.add_zero]
      _ < k := lt_of_lt_of_le htakelt htakelen
  omega

end BeamSearch

namespace BeamSearch

theorem nextCostsRow_getElem? {c : ECost} {m : Bool} {lpRow : List ℚ}
    {eol j : ℕ} (hj : j < lpRow.length) :
    ∃ p, lpRow[j]? = some p ∧
      (nextCostsRow c m lpRow eol)[j]? =
        some (if !m && (j != eol) then ⊤
              else c + (if m then ((p : ℚ) : ECost) else 0)) := by
  obtain ⟨p, hp⟩ := exists_getElem?_eq_some hj
  refine ⟨p, hp, ?_⟩
  rw [nextCostsRow, List.getElem?_map, List.getElem?_enum, hp]
  rfl

theorem nextCostsRow_length (c : ECost) (m : Bool) (lpRow : List ℚ)
    (eol : ℕ) : (nextCostsRow c m lpRow eol).length = lpRow.length := by
  rw [nextCostsRow, List.length_map, List.enum_length]

theorem nextCosts_length {costs : List ECost} {mask : List Bool}
    {lp : List (List ℚ)} {eol : ℕ}
    (hc : costs.length = lp.length) (hm : mask.length = lp.length) :
    (nextCosts costs mask lp eol).length = lp.length := by
  rw [nextCosts, List.length_zipWith, List.length_zip, hc, hm]
  omega

theorem nextCosts_getElem? {costs : List ECost} {mask : List Bool}
    {lp : List (List ℚ)} {eol : ℕ}
    (hc : costs.length = lp.length) (hm : mask.length = lp.length)
    {r : ℕ} (hr : r < lp.length) :
    ∃ c m row, costs[r]? = some c ∧ mask[r]? = some m ∧ lp[r]? = some row ∧
      (nextCosts costs mask lp eol)[r]? = some (nextCostsRow c m row eol) := by
  obtain ⟨c, hcr⟩ := exists_getElem?_eq_some (show r < costs.length by omega)
  obtain ⟨m, hmr⟩ := exists_getElem?_eq_some (show r < mask.length by omega)
  obtain ⟨row, hlr⟩ := exists_getElem?_eq_some hr
  refine ⟨c, m, row, hcr, hmr, hlr, ?_⟩
  have hzip : (costs.zip mask)[r]? = some (c, m) :=
    List.getElem?_zip_eq_some.mpr ⟨hcr, hmr⟩
  rw [nextCosts, List.getElem?_zipWith, hzip, hlr]

end BeamSearch

namespace BeamSearch

theorem nextCosts_mem_row {costs : List ECost} {mask : List Bool}
    {lp : List (List ℚ)} {eol : ℕ} {row' : List ECost}
    (hc : costs.length = lp.length) (hm : mask.length = lp.length)
    (hrow : row' ∈ nextCosts costs mask lp eol) :
    ∃ c m row, c ∈ costs ∧ row ∈ lp ∧
      row' = nextCostsRow c m row eol := by
  obtain ⟨r, hr⟩ := List.mem_iff_getElem?.mp hrow
  have hrlen : r < lp.length := by
    have := (List.getElem?_eq_some.mp hr).1
    rw [nextCosts_length hc hm] at this
    exact this
  obtain ⟨c, m, row, hcr, hmr, hlr, hN⟩ := nextCosts_getElem? hc hm hrlen
  rw [hr] at hN
  exact ⟨c, m, row, mem_of_getElem?_eq_some hcr,
    mem_of_getElem?_eq_some hlr, Option.some.inj hN⟩

theorem nextCosts_ncols {costs : List ECost} {mask : List Bool}
    {lp : List (List ℚ)} {eol V : ℕ}
    (hc : costs.length = lp.length) (hm : mask.length = lp.length)
    (hV : ∀ row ∈ lp, row.length = V) (hne : 0 < lp.length) :
    ncols (nextCosts costs mask lp eol) = V := by
  obtain ⟨c, m, row, hcr, hmr, hlr, hN⟩ :=
    @nextCosts_getElem? costs mask lp eol hc hm 0 hne
  have hlen : 0 < (nextCosts costs mask lp eol).length := by
    rw [nextCosts_length hc hm]; exact hne
  rcases hNC : nextCosts costs mask lp eol with _ | ⟨row0, rest⟩
  · rw [hNC] at hlen; simp at hlen
  · rw [hNC] at hN
    simp only [List.getElem?_cons_zero] at hN
    rw [ncols]
    simp only [List.headD_cons]
    rw [Option.some.inj hN, nextCostsRow_length]
    exact hV row (mem_of_getElem?_eq_some hlr)

theorem nextCosts_rect {costs : List ECost} {mask : List Bool}
    {lp : List (List ℚ)} {eol V : ℕ}
    (hc : costs.length = lp.length) (hm : mask.length = lp.length)
    (hV : ∀ row ∈ lp, row.length = V) :
    ∀ row' ∈ nextCosts costs mask lp eol,
      row'.length = ncols (nextCosts costs mask lp eol) := by
  intro row' hrow
  have hne : 0 < lp.length := by
    by_contra h0
    push_neg at h0
    have : lp = [] := List.length_eq_zero.mp (by omega)
    subst this
    simp [nextCosts] at hrow
  obtain ⟨c, m, row, -, hrl, rfl⟩ := nextCosts_mem_row hc hm hrow
  rw [nextCostsRow_length, hV row hrl, nextCosts_ncols hc hm hV hne]

theorem nextCostsRow_count {c : ECost} {m : Bool} {row : List ℚ}
    {eol V : ℕ} (hlen : row.length = V) (heol : eol < V) (hc : c ≠ ⊤) :
    1 ≤ (nextCostsRow c m row eol).countP (fun x => decide (x ≠ ⊤)) := by
  obtain ⟨p, -, hentry⟩ :=
    @nextCostsRow_getElem? c m row eol eol (show eol < row.length by omega)
  rw [Nat.succ_le_iff, List.countP_pos_iff]
  refine ⟨_, mem_of_getElem?_eq_some hentry, ?_⟩
  simp only [bne_self_eq_false, Bool.and_false, Bool.false_eq_true, if_false,
    decide_eq_true_eq]
  intro htop
  rcases WithTop.add_eq_top.mp htop with h | h
  · exact hc h
  · rcases m with _ | _
    · simp at h
    · simp at h

theorem nextCosts_countP {costs : List ECost} {mask : List Bool}
    {lp : List (List ℚ)} {eol V : ℕ}
    (hc : costs.length = lp.length) (hm : mask.length = lp.length)
    (hV : ∀ row ∈ lp, row.length = V) (heol : eol < V)
    (hfin : ∀ x ∈ costs, x ≠ ⊤) :
    lp.length ≤ (consideredFlat (nextCosts costs mask lp eol) false).countP
      (fun x => decide (x ≠ ⊤)) := by
  have h1 : consideredFlat (nextCosts costs mask lp eol) false =
      (nextCosts costs mask lp eol).flatten := by
    rw [consideredFlat]
    simp
  rw [h1, List.countP_flatten]
  have h2 : lp.length = (nextCosts costs mask lp eol).length := by
    rw [nextCosts_length hc hm]
  rw [h2, ← List.length_map (nextCosts costs mask lp eol)
    (List.countP (fun x => decide (x ≠ ⊤)))]
  apply length_le_sum_of_one_le
  intro x hx
  obtain ⟨row', hrow', rfl⟩ := List.mem_map.mp hx
  obtain ⟨c, m, row, hcm, hrl, rfl⟩ := nextCosts_mem_row hc hm hrow'
  exact nextCostsRow_count (hV row hrl) heol (hfin c hcm)

end BeamSearch

namespace BeamSearch

theorem selection_entry {costs : List ECost} {mask : List Bool}
    {lp : List (List ℚ)} {eol k V : ℕ} {off : Bool}
    {sel : List (ℕ × ℕ × ECost)}
    (hc : costs.length = lp.length) (hm : mask.length = lp.length)
    (hV : ∀ row ∈ lp, row.length = V)
    (hsel : smallest (nextCosts costs mask lp eol) k off = some sel) :
    ∀ t ∈ sel, ∃ c m row p,
      costs[t.1]? = some c ∧ mask[t.1]? = some m ∧ lp[t.1]? = some row ∧
      row[t.2.1]? = some p ∧
      t.2.2 = (if !m && (t.2.1 != eol) then ⊤
               else c + (if m then ((p : ℚ) : ECost) else 0)) := by
  intro t ht
  obtain ⟨⟨row', hrow', hentry⟩, -, -⟩ :=
    smallest_entry (nextCosts_rect hc hm hV) hsel ht
  have hr : t.1 < lp.length := by
    have := (List.getElem?_eq_some.mp hrow').1
    rw [nextCosts_length hc hm] at this
    exact this
  obtain ⟨c, m, row, hcr, hmr, hlr, hN⟩ := nextCosts_getElem? hc hm hr
  rw [hrow'] at hN
  have hrow'' := Option.some.inj hN
  subst hrow''
  have hcol : t.2.1 < row.length := by
    have := (List.getElem?_eq_some.mp hentry).1
    rw [nextCostsRow_length] at this
    exact this
  obtain ⟨p, hpr, hform⟩ :=
    @nextCostsRow_getElem? c m row eol t.2.1 hcol
  rw [hentry] at hform
  exact ⟨c, m, row, p, hcr, hmr, hlr, hpr, Option.some.inj hform⟩

/-- **C1**: in a (non-first) iteration of the `BeamSearch.search` loop,
any selected candidate whose parent hypothesis is finished (mask zero)
continues it with the end symbol at an unchanged cumulative cost: the
candidate-cost matrix adds the mask-zeroed log-probabilities and forces
every column except the end-symbol column of a finished row to `+inf`,
so as long as there are at least `beam_size` finite candidates (which
the end-symbol column of every row guarantees), a finished row can only
be extended through its end-symbol entry, whose value is the parent's
previous cost. -/
theorem beam_finished_hypothesis_step {σ : Type} (env : Env σ)
    (eol k V : ℕ) (st : LoopState σ) (sel : List (ℕ × ℕ × ECost))
    (hc : st.costs.length = (env.logprobs st.states).length)
    (hm : st.mask.length = (env.logprobs st.states).length)
    (hV : ∀ row ∈ env.logprobs st.states, row.length = V)
    (heol : eol < V)
    (hfin : ∀ x ∈ st.costs, x ≠ ⊤)
    (hk : k ≤ (env.logprobs st.states).length)
    (hsel : stepSelection env eol k false st = some sel) :
    ∀ t ∈ sel, st.mask[t.1]? = some false →
      t.2.1 = eol ∧ st.costs[t.1]? = some t.2.2 := by
  intro t ht hmask
  rw [stepSelection] at hsel
  obtain ⟨c, m, row, p, hcr, hmr, hlr, hpr, hform⟩ :=
    selection_entry hc hm hV hsel t ht
  have hmf : m = false := by
    rw [hmr] at hmask
    exact Option.some.inj hmask
  subst hmf
  by_cases hcol : t.2.1 = eol
  · refine ⟨hcol, ?_⟩
    rw [hcr, hform]
    simp [hcol]
  · exfalso
    have htop : t.2.2 = ⊤ := by
      rw [hform]
      simp [hcol]
    have hne := smallest_ne_top hsel
      (le_trans hk (nextCosts_countP hc hm hV heol hfin)) t ht
    exact hne htop

theorem smallest_first_row {M : List (List ECost)} {k : ℕ}
    {sel : List (ℕ × ℕ × ECost)} (h : smallest M k true = some sel) :
    ∀ t ∈ sel, t.1 = 0 := by
  intro t ht
  obtain ⟨i, hi, hflat, h1, -⟩ := smallest_spec h ht
  rcases M with _ | ⟨r0, rest⟩
  · simp [consideredFlat] at hi
  · have hflat' : consideredFlat (r0 :: rest) true = r0 := by
      simp [consideredFlat]
    rw [hflat'] at hi
    have hnc : ncols (r0 :: rest) = r0.length := rfl
    rw [h1, hnc, Nat.div_eq_of_lt hi]

/-- **C3**: at the very first loop iteration of `BeamSearch.search` the
candidate selection is restricted to row 0: `_smallest` is called with
`only_first_row=True`, it flattens only the first row of the candidate
matrix, and un-flattening any index below the row width yields row
index 0.  Hence every selected candidate of step 0 has row index 0. -/
theorem beam_first_step_row_zero {σ : Type} (env : Env σ) (eol k : ℕ)
    (st : LoopState σ) (sel : List (ℕ × ℕ × ECost))
    (hsel : stepSelection env eol k true st = some sel) :
    ∀ t ∈ sel, t.1 = 0 := by
  rw [stepSelection] at hsel
  exact smallest_first_row hsel

/-- **C7**: in any iteration of the `BeamSearch.search` loop, if the
log-probability computer returns elementwise non-negative values, every
chosen candidate cost equals the parent hypothesis's previous cumulative
cost plus a non-negative term (a mask-zeroed log-probability, or the
`+inf` sentinel), so costs never decrease under beam re-parenting. -/
theorem beam_cost_monotone_step {σ : Type} (env : Env σ)
    (eol k V : ℕ) (first : Bool) (st : LoopState σ)
    (sel : List (ℕ × ℕ × ECost))
    (hc : st.costs.length = (env.logprobs st.states).length)
    (hm : st.mask.length = (env.logprobs st.states).length)
    (hV : ∀ row ∈ env.logprobs st.states, row.length = V)
    (hnn : ∀ row ∈ env.logprobs st.states, ∀ p ∈ row, 0 ≤ p)
    (hsel : stepSelection env eol k first st = some sel) :
    ∀ t ∈ sel, ∃ c d, st.costs[t.1]? = some c ∧ 0 ≤ d ∧ t.2.2 = c + d := by
  intro t ht
  rw [stepSelection] at hsel
  obtain ⟨c, m, row, p, hcr, hmr, hlr, hpr, hform⟩ :=
    selection_entry hc hm hV hsel t ht
  by_cases hif : (!m && (t.2.1 != eol)) = true
  · refine ⟨c, ⊤, hcr, le_top, ?_⟩
    rw [hform, if_pos hif, add_top]
  · refine ⟨c, if m then ((p : ℚ) : ECost) else 0, hcr, ?_, ?_⟩
    · rcases m with _ | _
      · simp
      · have hp : 0 ≤ p :=
          hnn row (mem_of_getElem?_eq_some hlr) p (mem_of_getElem?_eq_some hpr)
        simpa using (WithTop.coe_le_coe.mpr hp : ((0 : ℚ) : ECost) ≤ (p : ECost))
    · rw [hform, if_neg hif]

end BeamSearch

namespace BeamSearch

theorem lexLe_le {a b : ℕ × ECost} (h : lexLe a b) : a.2 ≤ b.2 := by
  rcases h with h | ⟨h, -⟩
  · exact le_of_lt h
  · exact le_of_eq h

theorem entry_of_take {M : List (List ECost)} {k : ℕ} {off : Bool}
    {S : List (ℕ × ECost)} (hperm : S.Perm (consideredFlat M off).enum)
    (hw : ∀ row ∈ M, row.length = ncols M)
    {i : ℕ} {v : ECost} (hmem : (i, v) ∈ S.take k) :
    i < (consideredFlat M off).length ∧
    (consideredFlat M off)[i]? = some v ∧
    ∃ row, M[i / ncols M]? = some row ∧ row[i % ncols M]? = some v := by
  have hS : (i, v) ∈ S := (List.take_sublist k S).mem hmem
  have henum : (i, v) ∈ (consideredFlat M off).enum := hperm.mem_iff.mp hS
  have hflat : (consideredFlat M off)[i]? = some v :=
    List.mem_enum_iff_getElem?.mp henum
  have hi : i < (consideredFlat M off).length :=
    (List.getElem?_eq_some.mp hflat).1
  refine ⟨hi, hflat, ?_⟩
  rcases off with _ | _
  · simp only [consideredFlat, Bool.false_eq_true, if_neg] at hflat
    exact flatten_rect_getElem? hw (by simpa using hflat)
  · rcases M with _ | ⟨r0, rest⟩
    · simp [consideredFlat] at hi
    · have hflat' : r0[i]? = some v := by
        simpa [consideredFlat] using hflat
      have hir : i < r0.length := (List.getElem?_eq_some.mp hflat').1
      have hnc : ncols (r0 :: rest) = r0.length := rfl
      refine ⟨r0, ?_, ?_⟩
      · rw [hnc, Nat.div_eq_of_lt hir]
        simp
      · rw [hnc, Nat.mod_eq_of_lt hir]
        exact hflat'

theorem smallest_satisfies_contract {M : List (List ECost)} {k : ℕ}
    {off : Bool} {sel : List (ℕ × ℕ × ECost)}
    (h : smallest M k off = some sel) : smallestContract M k off sel := by
  obtain ⟨hk, rfl⟩ := smallest_eq h
  exact ⟨hk, List.insertionSort lexLe (consideredFlat M off).enum,
    List.perm_insertionSort lexLe _,
    (List.sorted_insertionSort lexLe _).imp lexLe_le, rfl⟩

/-- **C5** (amended): for every matrix of uniform row width and every
`k` smaller than the number of considered entries, any outcome the
`argpartition` + `argsort` pipeline of `_smallest` is permitted to
produce — any selection satisfying `smallestContract` — consists of `k`
entries of the (possibly first-row-restricted) matrix together with
their (row, column) positions, in ascending order of value, and they
are `k` smallest considered entries: no considered entry at an
unselected flattened position is smaller than any selected value.  The
order among entries of equal value is not guaranteed by numpy, so ties
are not necessarily broken by flattened index order (see
`beam_smallest_tie_counterexample`). -/
theorem beam_smallest_k_smallest (M : List (List ECost)) (k : ℕ)
    (off : Bool) (sel : List (ℕ × ℕ × ECost))
    (hw : ∀ row ∈ M, row.length = ncols M)
    (hsel : smallestContract M k off sel) :
    sel.length = k ∧
    List.Sorted (fun a b => a ≤ b) (sel.map (fun t => t.2.2)) ∧
    (∀ t ∈ sel, ∃ row, M[t.1]? = some row ∧ row[t.2.1]? = some t.2.2) ∧
    (∀ j vj, (consideredFlat M off)[j]? = some vj →
      (∀ t ∈ sel, t.1 * ncols M + t.2.1 ≠ j) →
      ∀ t ∈ sel, t.2.2 ≤ vj) := by
  obtain ⟨hk, S, hperm, hsorted, hself⟩ := hsel
  have hSlen : S.length = (consideredFlat M off).length := by
    rw [hperm.length_eq, List.enum_length]
  refine ⟨?_, ?_, ?_, ?_⟩
  · rw [hself, List.length_map, List.length_take]
    omega
  · rw [hself, List.map_map, List.Sorted, List.pairwise_map]
    exact (hsorted.sublist (List.take_sublist k S)).imp (fun h => h)
  · intro t ht
    rw [hself] at ht
    obtain ⟨p, hp, rfl⟩ := List.mem_map.mp ht
    obtain ⟨-, -, row, hr1, hr2⟩ := entry_of_take hperm hw hp
    exact ⟨row, hr1, hr2⟩
  · intro j vj hj hnot t ht
    have hn : 0 < ncols M :=
      ncols_pos_of_flat hw (List.getElem?_eq_some.mp hj).1
    have hjmem : (j, vj) ∈ (consideredFlat M off).enum :=
      List.mem_enum_iff_getElem?.mpr hj
    have hjS : (j, vj) ∈ S := hperm.mem_iff.mpr hjmem
    have hsplit := List.take_append_drop k S
    rcases List.mem_append.mp (by rw [hsplit]; exact hjS) with hjtake | hjdrop
    · exfalso
      have hmem : (j / ncols M, j % ncols M, vj) ∈ sel := by
        rw [hself]
        exact List.mem_map_of_mem _ hjtake
      exact hnot _ hmem (Nat.div_add_mod' j (ncols M))
    · rw [hself] at ht
      obtain ⟨p, hp, rfl⟩ := List.mem_map.mp ht
      have hpair : ∀ a ∈ S.take k, ∀ b ∈ S.drop k, a.2 ≤ b.2 :=
        (List.pairwise_append.mp (by rw [hsplit]; exact hsorted)).2.2
      exact hpair p hp (j, vj) hjdrop

/-- **C5** (counterexample to the claim as stated): on the 1×2 matrix
`[[1, 1]]` with `k = 1`, selecting the entry at flattened index 1 is a
legitimate outcome of the numpy pipeline (`smallestContract` holds for
it, exhibited by the value-sorted permutation that lists index 1
first), yet the equal-valued considered entry at the unselected
flattened index 0 is neither greater than the selected value nor a tie
at a *larger* index — so ties are not guaranteed to be broken by
flattened index order. -/
theorem beam_smallest_tie_counterexample :
    smallestContract [[((1 : ℚ) : ECost), ((1 : ℚ) : ECost)]] 1 false
      [(0, 1, ((1 : ℚ) : ECost))] ∧
    (consideredFlat [[((1 : ℚ) : ECost), ((1 : ℚ) : ECost)]] false)[0]? =
      some ((1 : ℚ) : ECost) ∧
    (0 : ℕ) * ncols [[((1 : ℚ) : ECost), ((1 : ℚ) : ECost)]] + 1 ≠ 0 ∧
    ¬(((1 : ℚ) : ECost) < ((1 : ℚ) : ECost) ∨
      (((1 : ℚ) : ECost) = ((1 : ℚ) : ECost) ∧
        (0 : ℕ) * ncols [[((1 : ℚ) : ECost), ((1 : ℚ) : ECost)]] + 1 < 0)) := by
  refine ⟨⟨by decide,
    [(1, ((1 : ℚ) : ECost)), (0, ((1 : ℚ) : ECost))], ?_, ?_, by decide⟩,
    by decide, by decide, by decide⟩
  · exact List.Perm.swap _ _ _
  · simp [List.sorted_cons]

end BeamSearch

namespace BeamSearch

/-- **C10**: `numpy.argpartition(flatten, k)` requires `k` below the
number of considered entries, so `BeamSearch.search` with a beam size at
least the vocabulary size fails at the very first step, where only the
first row of `V` candidate entries is considered, instead of returning
fewer candidates. -/
theorem beam_size_guard {σ : Type} (env : Env σ) (eol maxLength k : ℕ)
    (hB : env.initOutputs ≠ [])
    (hlen : 1 ≤ maxLength)
    (hk : ((env.logprobs env.initStates).headD []).length ≤ k) :
    search env eol maxLength k = none := by
  obtain ⟨n, rfl⟩ : ∃ n, maxLength = n + 1 :=
    ⟨maxLength - 1, by omega⟩
  obtain ⟨a, t, hB'⟩ := List.exists_cons_of_ne_nil hB
  rw [search]
  have hmask : (List.replicate env.initOutputs.length true).all
      (fun b => !b) = false := by
    rw [hB']
    simp [List.replicate_succ]
  rw [searchLoop]
  simp only [hmask, Bool.false_eq_true, if_false]
  have hstep : searchStep env eol k true
      { states := env.initStates
        allOutputs := [env.initOutputs]
        mask := List.replicate env.initOutputs.length true
        costs := List.replicate env.initOutputs.length (0 : ECost) } = none := by
    rw [searchStep, stepSelection]
    have hsm : smallest
        (nextCosts (List.replicate env.initOutputs.length (0 : ECost))
          (List.replicate env.initOutputs.length true)
          (env.logprobs env.initStates) eol) k true = none := by
      rcases hlp : env.logprobs env.initStates with _ | ⟨r0, rest⟩
      · rw [smallest]
        simp [nextCosts, consideredFlat]
      · rw [smallest]
        have hN : nextCosts (List.replicate env.initOutputs.length (0 : ECost))
            (List.replicate env.initOutputs.length true) (r0 :: rest) eol =
            nextCostsRow 0 true r0 eol ::
              List.zipWith (fun cm row => nextCostsRow cm.1 cm.2 row eol)
                (List.zip (List.replicate t.length (0 : ECost))
                  (List.replicate t.length true)) rest := by
          rw [nextCosts, hB']
          simp [List.replicate_succ]
        rw [hN]
        have hflat : consideredFlat
            (nextCostsRow 0 true r0 eol ::
              List.zipWith (fun cm row => nextCostsRow cm.1 cm.2 row eol)
                (List.zip (List.replicate t.length (0 : ECost))
                  (List.replicate t.length true)) rest) true =
            nextCostsRow 0 true r0 eol := by
          simp [consideredFlat]
        rw [hflat, nextCostsRow_length]
        rw [hlp] at hk
        simp only [List.headD_cons] at hk
        rw [if_neg (by omega)]
    rw [hsm]
    rfl
  rw [hstep]
  rfl

end BeamSearch

namespace BeamSearch

theorem postRow_block (eol : ℕ) (a b : List ℕ)
    (ha : ∀ x ∈ a, x ≠ eol) (hb : ∀ x ∈ b, x = eol) :
    postRow eol (a ++ b) =
      List.replicate a.length true ++
        (if b.isEmpty then []
         else true :: List.replicate (b.length - 1) false) := by
  have hma : a.map (fun s => s != eol) = List.replicate a.length true := by
    rw [List.eq_replicate_iff]
    constructor
    · rw [List.length_map]
    · intro x hx
      obtain ⟨s, hs, rfl⟩ := List.mem_map.mp hx
      simp [ha s hs]
  have hmb : b.map (fun s => s != eol) = List.replicate b.length false := by
    rw [List.eq_replicate_iff]
    constructor
    · rw [List.length_map]
    · intro x hx
      obtain ⟨s, hs, rfl⟩ := List.mem_map.mp hx
      simp [hb s hs]
  have hcount : ((a ++ b).map (fun s => s != eol)).count true = a.length := by
    rw [List.map_append, hma, hmb, List.count_append]
    simp [List.count_replicate]
  rcases hbe : b with _ | ⟨x, tb⟩
  · rw [postRow]
    simp only [← hbe, hcount]
    rw [if_neg (by rw [List.length_map]; subst hbe; simp)]
    rw [List.map_append, hma]
    subst hbe
    simp
  · rw [postRow]
    simp only [← hbe, hcount]
    rw [if_pos (by rw [List.length_map]; subst hbe; simp)]
    rw [List.map_append, hma, hmb]
    rw [set_append_length' _ _ _ _ (by simp)]
    subst hbe
    simp [List.replicate_succ]

/-- **C6**: after the search loop, `BeamSearch.search` drops the seeded
initial output row, and for each hypothesis whose (dropped) output
column is a block of non-end symbols followed only by end symbols, the
returned mask is 1 at every non-end position, additionally 1 at the
first end-symbol position when one exists, and 0 everywhere after it. -/
theorem beam_postprocess_mask (A : List (List ℕ)) (eol : ℕ) (j : ℕ)
    (a b : List ℕ)
    (hj : j < ((A.drop 1).headD []).length)
    (hcol : (A.drop 1).filterMap (fun row => row.get? j) = a ++ b)
    (ha : ∀ x ∈ a, x ≠ eol) (hb : ∀ x ∈ b, x = eol) :
    (postProcess A eol).1 = A.drop 1 ∧
    (postProcess A eol).2[j]? = some
      (List.replicate a.length true ++
        (if b.isEmpty then []
         else true :: List.replicate (b.length - 1) false)) := by
  constructor
  · rfl
  · simp only [postProcess]
    rw [List.getElem?_map]
    simp only [List.getElem?_range, hj, if_pos, Option.map_some,
      Option.map_some']
    rw [hcol, postRow_block eol a b ha hb]

end BeamSearch

namespace BeamSearch

/-- Witness for **C1** at a concrete two-hypothesis state in which
hypothesis 1 is finished: the selected candidate continuing it uses the
end symbol 1 and keeps its cost 0. -/
theorem beam_finished_hypothesis_step_witness :
    ((1 : ℕ), (1 : ℕ), ((0 : ℚ) : ECost)).2.1 = 1 ∧
    (LoopState.mk () [[0, 0]] [true, false]
      [((10 : ℚ) : ECost), ((0 : ℚ) : ECost)] : LoopState Unit).costs[
        ((1 : ℕ), (1 : ℕ), ((0 : ℚ) : ECost)).1]? =
      some ((1 : ℕ), (1 : ℕ), ((0 : ℚ) : ECost)).2.2 :=
  beam_finished_hypothesis_step
    (Env.mk () [0, 0] (fun _ => [[(1 : ℚ), 2], [3, 4]])
      (fun s _ => s) (fun s _ => s))
    1 2 2
    (LoopState.mk () [[0, 0]] [true, false]
      [((10 : ℚ) : ECost), ((0 : ℚ) : ECost)])
    [(1, 1, ((0 : ℚ) : ECost)), (0, 0, ((11 : ℚ) : ECost))]
    (by decide) (by decide) (by decide) (by decide) (by decide) (by decide)
    (by norm_num [stepSelection, smallest, nextCosts, nextCostsRow,
      consideredFlat, ncols, List.insertionSort, List.orderedInsert, lexLe,
      List.enum, List.enumFrom, WithTop.coe_lt_coe, WithTop.coe_lt_top,
      WithTop.coe_eq_coe, ← WithTop.coe_add,
      -WithTop.coe_ofNat, -WithTop.coe_one, -WithTop.coe_zero])
    (1, 1, ((0 : ℚ) : ECost)) (by decide) (by decide)

/-- Witness for **C3** at a concrete first step: the selected candidate
has row index 0. -/
theorem beam_first_step_row_zero_witness :
    ((0 : ℕ), (0 : ℕ), ((5 : ℚ) : ECost)).1 = 0 :=
  beam_first_step_row_zero
    (Env.mk () [0, 0] (fun _ => [[(5 : ℚ), 6], [7, 8]])
      (fun s _ => s) (fun s _ => s))
    1 1
    (LoopState.mk () [[0, 0]] [true, true]
      [((0 : ℚ) : ECost), ((0 : ℚ) : ECost)])
    [(0, 0, ((5 : ℚ) : ECost))]
    (by norm_num [stepSelection, smallest, nextCosts, nextCostsRow,
      consideredFlat, ncols, List.insertionSort, List.orderedInsert, lexLe,
      List.enum, List.enumFrom, WithTop.coe_lt_coe, WithTop.coe_lt_top,
      WithTop.coe_eq_coe, ← WithTop.coe_add,
      -WithTop.coe_ofNat, -WithTop.coe_one, -WithTop.coe_zero])
    (0, 0, ((5 : ℚ) : ECost)) (by decide)

/-- Witness for **C7** at a concrete step: the selected cost is the
parent's previous cost plus a non-negative term. -/
theorem beam_cost_monotone_step_witness :
    ∃ c d, (LoopState.mk () [[0, 0]] [true, false]
      [((0 : ℚ) : ECost), ((5 : ℚ) : ECost)] : LoopState Unit).costs[
        ((0 : ℕ), (0 : ℕ), ((1 : ℚ) : ECost)).1]? = some c ∧
      0 ≤ d ∧ ((0 : ℕ), (0 : ℕ), ((1 : ℚ) : ECost)).2.2 = c + d :=
  beam_cost_monotone_step
    (Env.mk () [0, 0] (fun _ => [[(1 : ℚ), 2], [3, 4]])
      (fun s _ => s) (fun s _ => s))
    1 2 2 false
    (LoopState.mk () [[0, 0]] [true, false]
      [((0 : ℚ) : ECost), ((5 : ℚ) : ECost)])
    [(0, 0, ((1 : ℚ) : ECost)), (0, 1, ((2 : ℚ) : ECost))]
    (by decide) (by decide) (by decide) (by decide)
    (by norm_num [stepSelection, smallest, nextCosts, nextCostsRow,
      consideredFlat, ncols, List.insertionSort, List.orderedInsert, lexLe,
      List.enum, List.enumFrom, WithTop.coe_lt_coe, WithTop.coe_lt_top,
      WithTop.coe_eq_coe, ← WithTop.coe_add,
      -WithTop.coe_ofNat, -WithTop.coe_one, -WithTop.coe_zero])
    (0, 0, ((1 : ℚ) : ECost)) (by decide)

/-- Witness for the amended **C5** at a concrete 2×2 matrix with a
`+inf` entry, through the conforming selection computed by `smallest`. -/
theorem beam_smallest_k_smallest_witness :
    [((0 : ℕ), (1 : ℕ), ((1 : ℚ) : ECost)), (1, 0, ((2 : ℚ) : ECost))].length = 2 ∧
    List.Sorted (fun a b => a ≤ b)
      ([((0 : ℕ), (1 : ℕ), ((1 : ℚ) : ECost)), (1, 0, ((2 : ℚ) : ECost))].map
        (fun t => t.2.2)) ∧
    (∀ t ∈ [((0 : ℕ), (1 : ℕ), ((1 : ℚ) : ECost)), (1, 0, ((2 : ℚ) : ECost))],
      ∃ row, [[((3 : ℚ) : ECost), 1], [2, ⊤]][t.1]? = some row ∧
        row[t.2.1]? = some t.2.2) ∧
    (∀ j vj,
      (consideredFlat [[((3 : ℚ) : ECost), 1], [2, ⊤]] false)[j]? = some vj →
      (∀ t ∈ [((0 : ℕ), (1 : ℕ), ((1 : ℚ) : ECost)), (1, 0, ((2 : ℚ) : ECost))],
        t.1 * ncols [[((3 : ℚ) : ECost), 1], [2, ⊤]] + t.2.1 ≠ j) →
      ∀ t ∈ [((0 : ℕ), (1 : ℕ), ((1 : ℚ) : ECost)), (1, 0, ((2 : ℚ) : ECost))],
        t.2.2 ≤ vj) :=
  beam_smallest_k_smallest [[((3 : ℚ) : ECost), 1], [2, ⊤]] 2 false
    [(0, 1, ((1 : ℚ) : ECost)), (1, 0, ((2 : ℚ) : ECost))]
    (by decide) (smallest_satisfies_contract (by decide))

/-- Witness for **C6** at a concrete three-row output buffer. -/
theorem beam_postprocess_mask_witness :
    (postProcess [[9, 9], [0, 2], [2, 2]] 2).1 =
      [[9, 9], [0, 2], [2, 2]].drop 1 ∧
    (postProcess [[9, 9], [0, 2], [2, 2]] 2).2[0]? = some
      (List.replicate [0].length true ++
        (if ([2] : List ℕ).isEmpty then []
         else true :: List.replicate (([2] : List ℕ).length - 1) false)) :=
  beam_postprocess_mask [[9, 9], [0, 2], [2, 2]] 2 0 [0] [2]
    (by decide) (by decide) (by decide) (by decide)

/-- Witness for **C10**: beam size 2 with a 2-symbol vocabulary makes
`search` fail at the first step. -/
theorem beam_size_guard_witness :
    search (Env.mk () [0] (fun _ => [[(1 : ℚ), 2]])
      (fun s _ => s) (fun s _ => s)) 0 1 2 = none :=
  beam_size_guard
    (Env.mk () [0] (fun _ => [[(1 : ℚ), 2]]) (fun s _ => s) (fun s _ => s))
    0 1 2 (by decide) (by decide) (by decide)

end BeamSearch

namespace SeqGen

variable {α φ ι σ γ ρ : Type}

theorem zipWith_getElem?_some {f : ρ → List α → List ℚ}
    {l1 : List ρ} {l2 : List (List α)} {i : ℕ} {a : ρ} {b : List α}
    (h1 : l1[i]? = some a) (h2 : l2[i]? = some b) :
    (List.zipWith f l1 l2)[i]? = some (f a b) := by
  rw [List.getElem?_zipWith, h1, h2]

theorem zipWith3_getElem?_some (f : φ → σ → γ → ρ) :
    ∀ (l1 : List φ) (l2 : List σ) (l3 : List γ) (i : ℕ) (a : φ) (b : σ)
      (c : γ), l1[i]? = some a → l2[i]? = some b → l3[i]? = some c →
      (zipWith3 f l1 l2 l3)[i]? = some (f a b c)
  | [], _, _, i, _, _, _, h1, _, _ => by simp at h1
  | _ :: _, [], _, i, _, _, _, _, h2, _ => by simp at h2
  | _ :: _, _ :: _, [], i, _, _, _, _, _, h3 => by simp at h3
  | x :: t1, y :: t2, z :: t3, 0, a, b, c, h1, h2, h3 => by
    simp only [List.getElem?_cons_zero] at h1 h2 h3
    rw [zipWith3]
    simp [Option.some.inj h1, Option.some.inj h2, Option.some.inj h3]
  | x :: t1, y :: t2, z :: t3, i + 1, a, b, c, h1, h2, h3 => by
    simp only [List.getElem?_cons_succ] at h1 h2 h3
    rw [zipWith3]
    simp only [List.getElem?_cons_succ]
    exact zipWith3_getElem?_some f t1 t2 t3 i a b c h1 h2 h3

theorem runTransition_fst_length (m : Model α φ ι σ γ ρ) :
    ∀ (l : List ι) (s : σ) (g : γ),
      (runTransition m s g l).1.length = l.length + 1
  | [], _, _ => rfl
  | inp :: rest, s, g => by
    simp only [runTransition, List.length_cons]
    rw [runTransition_fst_length m rest]

theorem runTransition_snd_length (m : Model α φ ι σ γ ρ) :
    ∀ (l : List ι) (s : σ) (g : γ),
      (runTransition m s g l).2.length = l.length + 1
  | [], _, _ => rfl
  | inp :: rest, s, g => by
    simp only [runTransition, List.length_cons]
    rw [runTransition_snd_length m rest]

theorem runTransition_fst_zero (m : Model α φ ι σ γ ρ) (l : List ι)
    (s : σ) (g : γ) : (runTransition m s g l).1[0]? = some s := by
  cases l <;> simp [runTransition]

theorem runTransition_snd_zero (m : Model α φ ι σ γ ρ) (l : List ι)
    (s : σ) (g : γ) : (runTransition m s g l).2[0]? = some g := by
  cases l <;> simp [runTransition]

theorem runTransition_spec (m : Model α φ ι σ γ ρ) :
    ∀ (l : List ι) (s : σ) (g : γ) (i : ℕ), i < l.length →
      ∃ st gl inp,
        (runTransition m s g l).1[i]? = some st ∧
        (runTransition m s g l).2[i]? = some gl ∧
        l[i]? = some inp ∧
        (runTransition m s g l).2[i + 1]? = some (m.takeGlimpses st gl) ∧
        (runTransition m s g l).1[i + 1]? =
          some (m.computeStates st (m.takeGlimpses st gl) inp)
  | [], _, _, i, hi => by simp at hi
  | inp :: rest, s, g, 0, hi => by
    refine ⟨s, g, inp, ?_, ?_, by simp, ?_, ?_⟩
    · simp [runTransition]
    · simp [runTransition]
    · simp only [runTransition, List.getElem?_cons_succ]
      exact runTransition_snd_zero m rest _ _
    · simp only [runTransition, List.getElem?_cons_succ]
      exact runTransition_fst_zero m rest _ _
  | inp :: rest, s, g, i + 1, hi => by
    obtain ⟨st, gl, inp', h1, h2, h3, h4, h5⟩ :=
      runTransition_spec m rest (m.computeStates s (m.takeGlimpses s g) inp)
        (m.takeGlimpses s g) i (by simpa using hi)
    exact ⟨st, gl, inp', by simpa [runTransition] using h1,
      by simpa [runTransition] using h2, by simpa using h3,
      by simpa [runTransition] using h4, by simpa [runTransition] using h5⟩

theorem getElem?_dropLast {l : List σ} {j : ℕ} (hj : j < l.length - 1) :
    l.dropLast[j]? = l[j]? := by
  rw [List.dropLast_eq_take, List.getElem?_take, if_pos hj]

theorem shifted_feedback_getElem? (fb : List φ) (x : φ) {i : ℕ}
    (hi : i < fb.length) :
    (setHead (roll1 fb) x)[i]? =
      if i = 0 then some x else fb.dropLast[i - 1]? := by
  rcases fb with _ | ⟨f0, rest⟩
  · simp at hi
  · have hy : ∃ y, (f0 :: rest).getLast? = some y :=
      ⟨(f0 :: rest).getLast (by simp),
        List.getLast?_eq_getLast (f0 :: rest) (by simp)⟩
    obtain ⟨y, hy⟩ := hy
    rw [roll1, hy, setHead]
    rcases i with _ | j
    · simp
    · simp

end SeqGen

namespace SeqGen

variable {α φ ι σ γ ρ : Type}

/-- **C2**: in `BaseSequenceGenerator.evaluate`, the cost of step `i`
(0-based) is produced from a readout built from the feedback of output
`i - 1` (step 0 using the feedback of the initial outputs), the state at
position `i` of the full transition run (the state *entering* step `i`),
and the glimpse at position `i + 1` (the glimpse computed *inside* step
`i` from the entering state and glimpse); the full state and glimpse
sequences have one entry more than the sequence, and the discarded final
state and initial glimpse positions never appear in any per-step cost.
The mask only multiplies the finished cost matrix elementwise. -/
theorem seqgen_cost_dependencies (m : Model α φ ι σ γ ρ)
    (outputs : List (List α)) (i : ℕ) (hi : i < outputs.length) :
    (runTransition m m.initState m.initGlimpse (inputSeq m outputs)).1.length =
      outputs.length + 1 ∧
    (runTransition m m.initState m.initGlimpse (inputSeq m outputs)).2.length =
      outputs.length + 1 ∧
    (∀ mk, evaluate m outputs (some mk) =
      List.zipWith (fun cr mr => List.zipWith (· * ·) cr mr)
        (evaluate m outputs none) mk) ∧
    ∃ s g inp y,
      outputs[i]? = some y ∧
      (runTransition m m.initState m.initGlimpse (inputSeq m outputs)).1[i]? =
        some s ∧
      (runTransition m m.initState m.initGlimpse (inputSeq m outputs)).2[i]? =
        some g ∧
      (inputSeq m outputs)[i]? = some inp ∧
      (runTransition m m.initState m.initGlimpse
        (inputSeq m outputs)).2[i + 1]? = some (m.takeGlimpses s g) ∧
      (runTransition m m.initState m.initGlimpse
        (inputSeq m outputs)).1[i + 1]? =
        some (m.computeStates s (m.takeGlimpses s g) inp) ∧
      (evaluate m outputs none)[i]? = some
        (m.cost
          (m.readout
            (if i = 0 then m.feedback m.initialOutputs
             else m.feedback (outputs.getD (i - 1) []))
            s (m.takeGlimpses s g))
          y) := by
  have hlin : (inputSeq m outputs).length = outputs.length := by
    simp [inputSeq]
  refine ⟨?_, ?_, ?_, ?_⟩
  · rw [runTransition_fst_length, hlin]
  · rw [runTransition_snd_length, hlin]
  · intro mk
    rfl
  · obtain ⟨y, hy⟩ := exists_getElem?_eq_some hi
    obtain ⟨s, g, inp, h1, h2, h3, h4, h5⟩ :=
      runTransition_spec m (inputSeq m outputs) m.initState m.initGlimpse i
        (by omega)
    refine ⟨s, g, inp, y, hy, h1, h2, h3, h4, h5, ?_⟩
    show (List.zipWith m.cost
      (zipWith3 m.readout
        (setHead (roll1 (outputs.map m.feedback))
          (m.feedback m.initialOutputs))
        (runTransition m m.initState m.initGlimpse
          (inputSeq m outputs)).1.dropLast
        ((runTransition m m.initState m.initGlimpse
          (inputSeq m outputs)).2.drop 1))
      outputs)[i]? = _
    have hfb2 : (setHead (roll1 (outputs.map m.feedback))
        (m.feedback m.initialOutputs))[i]? =
        some (if i = 0 then m.feedback m.initialOutputs
              else m.feedback (outputs.getD (i - 1) [])) := by
      rw [shifted_feedback_getElem? (outputs.map m.feedback)
        (m.feedback m.initialOutputs) (by simpa using hi)]
      rcases Nat.eq_zero_or_pos i with rfl | hpos
      · simp
      · rw [if_neg (by omega), if_neg (by omega)]
        obtain ⟨y', hy'⟩ :=
          exists_getElem?_eq_some (show i - 1 < outputs.length by omega)
        rw [getElem?_dropLast (by simpa using (by omega : i - 1 < outputs.length - 1)),
          List.getElem?_map, hy']
        have : outputs.getD (i - 1) [] = y' := by
          rw [List.getD_eq_getElem?_getD, hy']
          rfl
        rw [this]
        rfl
    have hst : (runTransition m m.initState m.initGlimpse
        (inputSeq m outputs)).1.dropLast[i]? = some s := by
      rw [getElem?_dropLast]
      · exact h1
      · rw [runTransition_fst_length, hlin]
        omega
    have hgl : ((runTransition m m.initState m.initGlimpse
        (inputSeq m outputs)).2.drop 1)[i]? = some (m.takeGlimpses s g) := by
      rw [List.getElem?_drop]
      rw [show 1 + i = i + 1 by omega]
      exact h4
    have hro := zipWith3_getElem?_some m.readout _ _ _ i _ _ _ hfb2 hst hgl
    exact zipWith_getElem?_some hro hy
  
end SeqGen

namespace SeqGen

variable {α φ ι σ γ ρ : Type}

theorem eq_range_map_getD {l : List ℚ} {w : ℕ} (hl : l.length = w) :
    l = (List.range w).map (fun b => l.getD b 0) := by
  apply List.ext_getElem?
  intro i
  rw [List.getElem?_map]
  by_cases hi : i < w
  · rw [List.getElem?_range hi]
    obtain ⟨a, ha⟩ := exists_getElem?_eq_some (show i < l.length by omega)
    rw [ha]
    simp only [Option.map_some, Option.map_some']
    rw [List.getD_eq_getElem?_getD, ha]
    rfl
  · rw [List.getElem?_eq_none (show l.length ≤ i by omega),
      List.getElem?_eq_none
        (show (List.range w).length ≤ i by rw [List.length_range]; omega)]
    rfl

theorem sumAxis0_acc (w : ℕ) :
    ∀ (rows : List (List ℚ)) (acc : List ℚ),
      (∀ row ∈ rows, row.length = w) → acc.length = w →
      rows.foldl (fun acc row => List.zipWith (· + ·) acc row) acc =
        (List.range w).map (fun b =>
          acc.getD b 0 + (rows.map (fun row => row.getD b 0)).sum)
  | [], acc, _, hacc => by
    simp only [List.foldl_nil, List.map_nil, List.sum_nil, add_zero]
    exact eq_range_map_getD hacc
  | row :: rest, acc, hrows, hacc => by
    have hrow : row.length = w := hrows row (List.mem_cons_self _ _)
    have hacc' : (List.zipWith (· + ·) acc row).length = w := by
      rw [List.length_zipWith, hacc, hrow]
      omega
    rw [List.foldl_cons,
      sumAxis0_acc w rest (List.zipWith (· + ·) acc row)
        (fun r hr => hrows r (List.mem_cons_of_mem _ hr)) hacc']
    apply List.map_congr_left
    intro b hb
    have hbw : b < w := List.mem_range.mp hb
    obtain ⟨x, hx⟩ := exists_getElem?_eq_some (show b < acc.length by omega)
    obtain ⟨y, hy⟩ := exists_getElem?_eq_some (show b < row.length by omega)
    have hz : (List.zipWith (· + ·) acc row)[b]? = some (x + y) := by
      rw [List.getElem?_zipWith, hx, hy]
    simp only [List.map_cons, List.sum_cons]
    rw [List.getD_eq_getElem?_getD, hz, List.getD_eq_getElem?_getD, hx,
      List.getD_eq_getElem?_getD, hy]
    simp only [Option.getD_some]
    ring

theorem sumAxis0_spec {w : ℕ} {rows : List (List ℚ)}
    (hrows : ∀ row ∈ rows, row.length = w) :
    sumAxis0 w rows =
      (List.range w).map (fun b => (rows.map (fun row => row.getD b 0)).sum) := by
  rw [sumAxis0, sumAxis0_acc w rows (List.replicate w 0) hrows (by simp)]
  apply List.map_congr_left
  intro b hb
  rw [List.getD_eq_getElem?_getD, List.getElem?_replicate,
    if_pos (List.mem_range.mp hb)]
  simp

/-- **C4**: `BaseSequenceGenerator.cost` returns the mean over the batch
dimension of the sums over the time dimension of the per-step costs of
`cost_matrix` (= `evaluate(...)[0]`), and the auxiliary
`per_sequence_element` variable is the sum of all costs divided by the
sum of the mask when a mask is provided (and the plain sum of all costs
otherwise). -/
theorem seqgen_cost_mean (m : Model α φ ι σ γ ρ)
    (outputs : List (List α)) (mask : Option (List (List ℚ)))
    (hB : ∀ row ∈ evaluate m outputs mask,
      row.length = (outputs.headD []).length) :
    (costAndAux m outputs mask).1 =
      ((List.range (outputs.headD []).length).map (fun b =>
        ((evaluate m outputs mask).map (fun row => row.getD b 0)).sum)).sum /
        ((outputs.headD []).length : ℚ) ∧
    (costAndAux m outputs mask).2 =
      (match mask with
       | some mk => matTotal (evaluate m outputs mask) / matTotal mk
       | none => matTotal (evaluate m outputs mask)) := by
  constructor
  · show listMean (sumAxis0 (outputs.headD []).length
      (evaluate m outputs mask)) = _
    rw [sumAxis0_spec hB, listMean, List.length_map, List.length_range]
  · rcases mask with _ | mk
    · rfl
    · rfl

end SeqGen

namespace SeqGen

/-- Witness for **C2** at a concrete two-step sequence over `natModel`. -/
theorem seqgen_cost_dependencies_witness :
    (runTransition natModel natModel.initState natModel.initGlimpse
      (inputSeq natModel [[1], [2]])).1.length = [[1], [2]].length + 1 ∧
    (runTransition natModel natModel.initState natModel.initGlimpse
      (inputSeq natModel [[1], [2]])).2.length = [[1], [2]].length + 1 ∧
    (∀ mk, evaluate natModel [[1], [2]] (some mk) =
      List.zipWith (fun cr mr => List.zipWith (· * ·) cr mr)
        (evaluate natModel [[1], [2]] none) mk) ∧
    ∃ s g inp y,
      ([[1], [2]] : List (List ℕ))[1]? = some y ∧
      (runTransition natModel natModel.initState natModel.initGlimpse
        (inputSeq natModel [[1], [2]])).1[1]? = some s ∧
      (runTransition natModel natModel.initState natModel.initGlimpse
        (inputSeq natModel [[1], [2]])).2[1]? = some g ∧
      (inputSeq natModel [[1], [2]])[1]? = some inp ∧
      (runTransition natModel natModel.initState natModel.initGlimpse
        (inputSeq natModel [[1], [2]])).2[1 + 1]? =
          some (natModel.takeGlimpses s g) ∧
      (runTransition natModel natModel.initState natModel.initGlimpse
        (inputSeq natModel [[1], [2]])).1[1 + 1]? =
          some (natModel.computeStates s (natModel.takeGlimpses s g) inp) ∧
      (evaluate natModel [[1], [2]] none)[1]? = some
        (natModel.cost
          (natModel.readout
            (if 1 = 0 then natModel.feedback natModel.initialOutputs
             else natModel.feedback (([[1], [2]] : List (List ℕ)).getD (1 - 1) []))
            s (natModel.takeGlimpses s g))
          y) :=
  seqgen_cost_dependencies natModel [[1], [2]] 1 (by decide)

/-- Witness for **C4** over `natModel` on a batch-1 two-step sequence. -/
theorem seqgen_cost_mean_witness :
    (costAndAux natModel [[1], [2]] none).1 =
      ((List.range (([[1], [2]] : List (List ℕ)).headD []).length).map (fun b =>
        ((evaluate natModel [[1], [2]] none).map
          (fun row => row.getD b 0)).sum)).sum /
        ((([[1], [2]] : List (List ℕ)).headD []).length : ℚ) ∧
    (costAndAux natModel [[1], [2]] none).2 =
      (match (none : Option (List (List ℚ))) with
       | some mk => matTotal (evaluate natModel [[1], [2]] none) / matTotal mk
       | none => matTotal (evaluate natModel [[1], [2]] none)) :=
  seqgen_cost_mean natModel [[1], [2]] none (by decide)

end SeqGen

namespace SoftmaxEmitter

theorem chunksF_flatten :
    ∀ (fuel w : ℕ) (l : List ℚ), l.length ≤ fuel → 0 < w →
      (chunksF fuel w l).flatten = l
  | 0, w, l, h, _ => by
    have hl : l = [] := List.length_eq_zero.mp (by omega)
    subst hl
    rfl
  | fuel + 1, w, [], _, _ => rfl
  | fuel + 1, w, x :: t, h, hw => by
    show ((x :: t).take w :: chunksF fuel w ((x :: t).drop w)).flatten = x :: t
    rw [List.flatten_cons,
      chunksF_flatten fuel w ((x :: t).drop w)
        (by rw [List.length_drop]; simp at h ⊢; omega) hw,
      List.take_append_drop]

theorem chunks_flatten {w : ℕ} (l : List ℚ) (hw : 0 < w) :
    (chunks w l).flatten = l :=
  chunksF_flatten l.length w l (le_refl _) hw

theorem probsFlat_length {f : List ℚ → List ℚ} {w : ℕ} {l : List ℚ}
    (hf : ∀ x, (f x).length = x.length) (hw : 0 < w) :
    ((chunks w l).map f).flatten.length = l.length := by
  rw [List.length_flatten, List.map_map]
  have : (chunks w l).map (List.length ∘ f) = (chunks w l).map List.length := by
    apply List.map_congr_left
    intro c _
    exact hf c
  rw [this, ← List.length_flatten, chunks_flatten l hw]

/-- **C8** (counterexample to the claim as stated): `SoftmaxEmitter.cost`
called with rank-3 readouts of shape `[4, 1, 2]` and rank-1 outputs of
shape `[4]` — a rank mismatch of two — succeeds and raises no error:
every gather index stays inside the flattened probabilities, exactly as
the source's own WARNING comment admits ("this application method works
just fine when readouts and outputs have different dimensions"). -/
theorem softmax_cost_rank_counterexample :
    (cost id id ⟨[4, 1, 2], List.replicate 8 (0 : ℚ)⟩
      ⟨[4], [0, 0, 0, 0]⟩).isSome = true ∧
    ([4, 1, 2] : List ℕ).length = ([4] : List ℕ).length + 2 := by
  constructor
  · decide
  · decide

/-- **C8** (amended): `SoftmaxEmitter.cost` performs no rank check at
all; it succeeds whenever every gather index
`lastDim * i + outputs[i]` lands inside the flattened probabilities.  In
particular the supported case works: for any length-preserving softmax,
readouts of shape `outShape ++ [lastDim]` and outputs of shape
`outShape` (rank exactly one less) with entries below `lastDim` are
scored without error — but larger rank mismatches are not rejected
(see the counterexample). -/
theorem softmax_cost_rank_one_less (softmaxRow : List ℚ → List ℚ)
    (negLog : ℚ → ℚ) (outShape : List ℕ) (lastDim : ℕ)
    (rdata : List ℚ) (odata : List ℕ)
    (hsoft : ∀ l, (softmaxRow l).length = l.length)
    (hr : rdata.length = (outShape ++ [lastDim]).prod)
    (ho : odata.length = outShape.prod)
    (hbound : ∀ o ∈ odata, o < lastDim) :
    (cost softmaxRow negLog ⟨outShape ++ [lastDim], rdata⟩
      ⟨outShape, odata⟩).isSome = true := by
  have hlast : (((outShape ++ [lastDim]).getLast?).getD 0) = lastDim := by
    rw [List.getLast?_concat]
    rfl
  simp only [cost, hlast]
  rw [if_pos]
  · rfl
  · rw [List.all_eq_true]
    intro p hp
    obtain ⟨i, o, rfl⟩ : ∃ i o, p = (i, o) := ⟨p.1, p.2, rfl⟩
    have hio := List.mem_enum_iff_getElem?.mp hp
    simp only at hio
    have hi : i < odata.length := (List.getElem?_eq_some.mp hio).1
    have hom : o ∈ odata := mem_of_getElem?_eq_some hio
    have holt : o < lastDim := hbound o hom
    have hw : 0 < lastDim := by omega
    have hlen : ((chunks lastDim rdata).map softmaxRow).flatten.length =
        rdata.length := probsFlat_length hsoft hw
    rw [decide_eq_true_eq, hlen, hr, List.prod_append, List.prod_singleton]
    calc lastDim * i + o < lastDim * i + lastDim := by omega
      _ = lastDim * (i + 1) := by ring
      _ ≤ lastDim * odata.length := Nat.mul_le_mul_left _ (by omega)
      _ ≤ outShape.prod * lastDim := by
          rw [ho, Nat.mul_comm]

end SoftmaxEmitter

namespace SoftmaxEmitter

/-- Witness for the amended **C8** at a concrete rank-2 readout of
shape `[2, 3]` and rank-1 outputs `[0, 2]`. -/
theorem softmax_cost_rank_one_less_witness :
    (cost id id ⟨[2] ++ [3], List.replicate 6 (0 : ℚ)⟩
      ⟨[2], [0, 2]⟩).isSome = true :=
  softmax_cost_rank_one_less id id [2] 3 (List.replicate 6 (0 : ℚ)) [0, 2]
    (fun _ => rfl) (by decide) (by decide) (by decide)

end SoftmaxEmitter

namespace Aggregation

/-- **C9**: initializing the `Mean` aggregator and accumulating the two
test batches `[[0,1],[2,3]]` (2 rows) and `[[4,5],[6,7],[8,9]]`
(3 rows), whose monitored numerators are the sums of row means and whose
denominators are the row counts, makes the readout — the accumulated
numerator over the accumulated denominator — equal to the overall mean
9/2 = 4.5 of all ten values. -/
theorem mean_aggregation_scenario :
    ((MeanAgg.initialization.accumulate
        (batchNumerator [[0, 1], [2, 3]])
        (batchDenominator [[0, 1], [2, 3]])).accumulate
        (batchNumerator [[4, 5], [6, 7], [8, 9]])
        (batchDenominator [[4, 5], [6, 7], [8, 9]])).readout = 9 / 2 ∧
    (9 : ℚ) / 2 = ([0, 1, 2, 3, 4, 5, 6, 7, 8, 9] : List ℚ).sum / 10 := by
  constructor
  · norm_num [MeanAgg.initialization, MeanAgg.accumulate, MeanAgg.readout,
      batchNumerator, batchDenominator, SeqGen.listMean]
  · norm_num

end Aggregation
